import Mathlib

/-!
Verification of the evolutionary multi-objective knapsack optimizer in
`src/optops/__init__.py`.

An individual genome is a set of item ids.  Fitness is a pair
(total weight, total value) with optimization directions (minimize, maximize),
fixed by the DEAP fitness weights `(-1.0, 1.0)` registered by the script.
The pure functions written in the script itself (`evalKnapsack`, `cxSet`,
`mutSet`, the final-metric extraction in `main`) are embedded directly.
Behaviour the script delegates to the DEAP library (the dominance relation of
`base.Fitness`, the `ParetoFront` hall of fame, the generation-record
bookkeeping of `eaMuPlusLambda`, configuration validation) is modelled from
the specification, as noted in the corresponding doc comments.  Machine floats
are embedded as exact rationals.
-/

namespace OptOps

/-- Constant `MAX_ITEM = 50` of the script. -/
def MAX_ITEM : ℕ := 50

/-- Constant `MAX_WEIGHT = 50` of the script. -/
def MAX_WEIGHT : ℚ := 50

/-- Constant `NBR_ITEMS = 20` of the script. -/
def NBR_ITEMS : ℕ := 20

/-- Embedding of `evalKnapsack`: sum the catalog weights and values over the
individual's item ids; an individual with more than `MAX_ITEM` items or with
summed weight above `MAX_WEIGHT` gets the sentinel vector `(10000, 0)`.
The item catalog `items` (filled by the script with seeded random draws,
weight in `[1,10]`, value in `[0,100]`) is a parameter of the embedding. -/
def evalKnapsack (items : ℕ → ℚ × ℚ) (individual : Finset ℕ) : ℚ × ℚ :=
  let weight : ℚ := ∑ i ∈ individual, (items i).1
  let value : ℚ := ∑ i ∈ individual, (items i).2
  if MAX_ITEM < individual.card ∨ MAX_WEIGHT < weight then (10000, 0)
  else (weight, value)

/-- Modelled from the spec: the dominance relation is DEAP `base.Fitness`
library code, not under `src/`; only the weights `(-1.0, 1.0)` appear in the
script.  Following the spec's words, `x` dominates `y` iff `x` is at least as
good as `y` in every objective under that objective's direction (weight
minimized, value maximized) and strictly better in at least one. -/
def dominates (x y : ℚ × ℚ) : Prop :=
  (x.1 ≤ y.1 ∧ y.2 ≤ x.2) ∧ (x.1 < y.1 ∨ y.2 < x.2)

instance decidableDominates (x y : ℚ × ℚ) : Decidable (dominates x y) := by
  unfold dominates
  exact inferInstance

/-- C1: an individual whose item count exceeds `MAX_ITEM` or whose summed
catalog weight exceeds `MAX_WEIGHT` evaluates to the sentinel `(10000, 0)`;
that sentinel is dominated by the objective vector `(0, 0)` of the empty
individual; and the empty individual itself evaluates to the feasible
vector `(0, 0)`. -/
theorem evalKnapsack_penalty_dominated (items : ℕ → ℚ × ℚ) (individual : Finset ℕ)
    (h : MAX_ITEM < individual.card ∨ MAX_WEIGHT < ∑ i ∈ individual, (items i).1) :
    evalKnapsack items individual = (10000, 0) ∧
    dominates (0, 0) (evalKnapsack items individual) ∧
    evalKnapsack items (∅ : Finset ℕ) = (0, 0) := by
  have hsent : evalKnapsack items individual = (10000, 0) := by
    simp only [evalKnapsack, if_pos h]
  refine ⟨hsent, ?_, ?_⟩
  · rw [hsent]
    exact ⟨⟨by norm_num, le_refl _⟩, Or.inl (by norm_num)⟩
  · simp [evalKnapsack, MAX_ITEM, MAX_WEIGHT]

/-- Witness for C1 at a concrete overfull individual (51 items of weight 1). -/
theorem evalKnapsack_penalty_dominated_witness :
    (MAX_ITEM < (Finset.range 51).card) ∧
    (evalKnapsack (fun _ => (1, 1)) (Finset.range 51) = (10000, 0) ∧
     dominates (0, 0) (evalKnapsack (fun _ => (1, 1)) (Finset.range 51)) ∧
     evalKnapsack (fun _ => (1, 1)) (∅ : Finset ℕ) = (0, 0)) :=
  ⟨by simp [MAX_ITEM],
   evalKnapsack_penalty_dominated (fun _ => (1, 1)) (Finset.range 51)
     (Or.inl (by simp [MAX_ITEM]))⟩

/-- Dominance never relates a vector to itself. -/
theorem dominates_irrefl (x : ℚ × ℚ) : ¬ dominates x x := by
  rintro ⟨⟨-, -⟩, h | h⟩ <;> exact lt_irrefl _ h

/-- Dominance is asymmetric. -/
theorem dominates_asymm {x y : ℚ × ℚ} (hxy : dominates x y) : ¬ dominates y x := by
  obtain ⟨⟨hw, hv⟩, -⟩ := hxy
  rintro ⟨⟨hw', hv'⟩, h | h⟩
  · exact absurd (le_antisymm hw hw') (ne_of_gt h)
  · exact absurd (le_antisymm hv hv') (ne_of_gt h)

/-- Dominance is transitive. -/
theorem dominates_trans {x y z : ℚ × ℚ} (hxy : dominates x y)
    (hyz : dominates y z) : dominates x z := by
  obtain ⟨⟨hw, hv⟩, hst⟩ := hxy
  obtain ⟨⟨hw', hv'⟩, -⟩ := hyz
  refine ⟨⟨le_trans hw hw', le_trans hv' hv⟩, ?_⟩
  rcases hst with h | h
  · exact Or.inl (lt_of_lt_of_le h hw')
  · exact Or.inr (lt_of_le_of_lt hv' h)

/-- C2: dominance is a strict order relation on objective vectors:
irreflexive, asymmetric, and transitive. -/
theorem dominates_strict_order :
    (∀ x : ℚ × ℚ, ¬ dominates x x) ∧
    (∀ x y : ℚ × ℚ, dominates x y → ¬ dominates y x) ∧
    (∀ x y z : ℚ × ℚ, dominates x y → dominates y z → dominates x z) :=
  ⟨dominates_irrefl, fun _ _ h => dominates_asymm h,
   fun _ _ _ hxy hyz => dominates_trans hxy hyz⟩

/-- Witness for C2 at concrete vectors `(1,9)`, `(5,2)`, `(7,0)`. -/
theorem dominates_strict_order_witness :
    ¬ dominates ((3 : ℚ), (4 : ℚ)) (3, 4) ∧
    ¬ dominates ((5 : ℚ), (2 : ℚ)) (1, 9) ∧
    dominates ((1 : ℚ), (9 : ℚ)) (7, 0) :=
  ⟨dominates_strict_order.1 (3, 4),
   dominates_strict_order.2.1 (1, 9) (5, 2) (by decide),
   dominates_strict_order.2.2 (1, 9) (5, 2) (7, 0) (by decide) (by decide)⟩

/-- Embedding of `cxSet`: a snapshot `temp` of the first parent is taken, the
first parent becomes the intersection of the two parents (in place in the
script), and the second becomes the symmetric difference of the second parent
and the snapshot of the first. -/
def cxSet (ind1 ind2 : Finset ℕ) : Finset ℕ × Finset ℕ :=
  let temp := ind1
  (ind1 ∩ ind2, symmDiff ind2 temp)

/-- Unfolding equation for `cxSet`. -/
theorem cxSet_eq (a b : Finset ℕ) : cxSet a b = (a ∩ b, symmDiff b a) := rfl

/-- C4: crossover replaces the first parent by the intersection of the two
parents and the second by the symmetric difference of the original first
parent and the second parent; both children are subsets of the union of the
two original parents. -/
theorem cxSet_children (a b : Finset ℕ) :
    (cxSet a b).1 = a ∩ b ∧
    (cxSet a b).2 = symmDiff a b ∧
    (cxSet a b).1 ⊆ a ∪ b ∧
    (cxSet a b).2 ⊆ a ∪ b := by
  refine ⟨rfl, symmDiff_comm b a, Finset.inter_subset_union, ?_⟩
  intro x hx
  rw [cxSet_eq] at hx
  rcases Finset.mem_symmDiff.mp hx with ⟨h, -⟩ | ⟨h, -⟩
  · exact Finset.mem_union_right _ h
  · exact Finset.mem_union_left _ h

/-- C10: the two children of crossover are disjoint, their union is the union
of the two original parents, and the sum of the children's cardinalities is
the cardinality of the parents' union, which is at most the sum of the
parents' cardinalities. -/
theorem cxSet_partition (a b : Finset ℕ) :
    Disjoint (cxSet a b).1 (cxSet a b).2 ∧
    (cxSet a b).1 ∪ (cxSet a b).2 = a ∪ b ∧
    (cxSet a b).1.card + (cxSet a b).2.card = (a ∪ b).card ∧
    (a ∪ b).card ≤ a.card + b.card := by
  have hdisj : Disjoint (cxSet a b).1 (cxSet a b).2 := by
    rw [cxSet_eq]
    have h1 : Disjoint (b ⊓ a) (symmDiff b a) := (disjoint_symmDiff_inf b a).symm
    rw [Finset.inf_eq_inter, Finset.inter_comm b a] at h1
    exact h1
  have huni : (cxSet a b).1 ∪ (cxSet a b).2 = a ∪ b := by
    rw [cxSet_eq]
    have h2 := inf_sup_symmDiff b a
    simp only [Finset.inf_eq_inter, Finset.sup_eq_union] at h2
    rw [Finset.inter_comm b a, Finset.union_comm b a] at h2
    exact h2
  refine ⟨hdisj, huni, ?_, Finset.card_union_le a b⟩
  rw [← huni]
  exact (Finset.card_union_of_disjoint hdisj).symm

/-- Embedding of `mutSet` at the level of the individual's id-set.  The
script's random draws are parameters: `coin` is true when
`random.random() < 0.5` holds (the remove side of the coin), `idx` is the
index drawn by `random.choice` into the sorted sequence of current members,
and `addId` is the id drawn by `random.randrange(NBR_ITEMS)`.  When the
remove side is selected on an empty set nothing happens: the add branch is
the `else` of the outer coin test, not a fallback of the inner emptiness
test. -/
def mutSetF (coin : Bool) (idx addId : ℕ) (s : Finset ℕ) : Finset ℕ :=
  if coin then
    if 0 < s.card then s.erase ((Finset.sort (· ≤ ·) s).getD idx 0)
    else s
  else insert addId s

/-- Embedding of `mutSet` on a concrete container holding the individual's
members in unspecified order: a Python set iterates in some unspecified
order, modelled by a duplicate-free list.  `sorted(tuple(individual))` is the
merge sort of that container, `random.choice` picks the member at index
`idx` of the sorted sequence, `set.remove` deletes that member, and
`set.add` appends `addId` when it is absent. -/
def mutSetL (coin : Bool) (idx addId : ℕ) (l : List ℕ) : List ℕ :=
  if coin then
    if 0 < l.length then l.erase (l.mergeSort.getD idx 0)
    else l
  else if addId ∈ l then l else l ++ [addId]

/-- Unfolding equation for the add side of the coin in `mutSetF`. -/
theorem mutSetF_false_eq (idx addId : ℕ) (s : Finset ℕ) :
    mutSetF false idx addId s = insert addId s := rfl

/-- Unfolding equation for the remove side of the coin in `mutSetF`. -/
theorem mutSetF_true_eq (idx addId : ℕ) (s : Finset ℕ) :
    mutSetF true idx addId s =
      if 0 < s.card then s.erase ((Finset.sort (· ≤ ·) s).getD idx 0)
      else s := rfl

/-- Unfolding equation for the add side of the coin in `mutSetL`. -/
theorem mutSetL_false_eq (idx addId : ℕ) (l : List ℕ) :
    mutSetL false idx addId l = if addId ∈ l then l else l ++ [addId] := rfl

/-- Unfolding equation for the remove side of the coin in `mutSetL`. -/
theorem mutSetL_true_eq (idx addId : ℕ) (l : List ℕ) :
    mutSetL true idx addId l =
      if 0 < l.length then l.erase (l.mergeSort.getD idx 0) else l := rfl

/-- Merge-sorting a duplicate-free container gives the canonical sorted
sequence of its underlying finite set. -/
theorem mergeSort_eq_sort_toFinset {l : List ℕ} (hl : l.Nodup) :
    l.mergeSort = Finset.sort (· ≤ ·) l.toFinset :=
  List.eq_of_perm_of_sorted
    ((List.mergeSort_perm l _).trans
      (((Finset.sort_perm_toList (· ≤ ·) l.toFinset).trans
        (List.toFinset_toList hl)).symm))
    (List.sorted_mergeSort' l) (Finset.sort_sorted (· ≤ ·) l.toFinset)

/-- Erasing from a duplicate-free container erases from its underlying set. -/
theorem toFinset_erase_of_nodup {l : List ℕ} (hl : l.Nodup) (v : ℕ) :
    (l.erase v).toFinset = l.toFinset.erase v := by
  ext a
  simp only [List.mem_toFinset, Finset.mem_erase, hl.mem_erase_iff]

/-- The member of a finite set of ids at position `idx` of its sorted
sequence belongs to the set. -/
theorem sort_getD_mem (s : Finset ℕ) (idx : ℕ) (h : idx < s.card) :
    (Finset.sort (· ≤ ·) s).getD idx 0 ∈ s := by
  have hlen : idx < (Finset.sort (· ≤ ·) s).length := by
    rwa [Finset.length_sort]
  rw [List.getD_eq_getElem _ _ hlen]
  exact (Finset.mem_sort (· ≤ ·)).mp (List.getElem_mem hlen)

/-- The container-level mutation agrees with the set-level mutation: the
id-set of the mutated container is the mutation of the container's id-set. -/
theorem mutSetL_toFinset (coin : Bool) (idx addId : ℕ) {l : List ℕ}
    (hl : l.Nodup) :
    (mutSetL coin idx addId l).toFinset = mutSetF coin idx addId l.toFinset := by
  have hcard : l.toFinset.card = l.length := List.toFinset_card_of_nodup hl
  rcases coin with - | -
  · rw [mutSetL_false_eq, mutSetF_false_eq]
    by_cases hmem : addId ∈ l
    · rw [if_pos hmem, Finset.insert_eq_self.mpr (List.mem_toFinset.mpr hmem)]
    · rw [if_neg hmem, List.toFinset_append, Finset.union_comm]
      simp [Finset.insert_eq]
  · rw [mutSetL_true_eq, mutSetF_true_eq]
    by_cases hpos : 0 < l.length
    · rw [if_pos hpos, if_pos (by rwa [hcard]),
        toFinset_erase_of_nodup hl, mergeSort_eq_sort_toFinset hl]
    · rw [if_neg hpos, if_neg (by rwa [hcard])]

/-- Counterexample to C6 as stated: mutating the empty individual when the
coin selects the remove branch performs no add at all, returning the empty
set, whose cardinality is 0 and not 1. -/
theorem mutSet_empty_remove_counterexample :
    mutSetF true 0 5 (∅ : Finset ℕ) = ∅ ∧
    (mutSetF true 0 5 (∅ : Finset ℕ)).card ≠ 1 := by
  decide

/-- C6 amended: the add branch runs only when the coin selects it; mutating
an empty individual yields cardinality exactly 1 when the coin selects the
add branch, and returns the empty individual unchanged (cardinality 0) when
the coin selects the remove branch, because the remove branch is skipped on
an empty set without falling through to an add. -/
theorem mutSet_empty (idx addId : ℕ) :
    (mutSetF false idx addId ∅).card = 1 ∧
    mutSetF true idx addId (∅ : Finset ℕ) = ∅ := by
  constructor
  · simp [mutSetF]
  · simp [mutSetF]

/-- C9: on an individual containing every catalog id, the add branch never
changes the cardinality (adding a present id is a no-op on a set); on any
non-empty individual the remove branch decreases the cardinality by exactly
one. -/
theorem mutSet_cardinality_boundary :
    (∀ (s : Finset ℕ) (idx addId : ℕ), (∀ i < NBR_ITEMS, i ∈ s) →
      addId < NBR_ITEMS → (mutSetF false idx addId s).card = s.card) ∧
    (∀ (s : Finset ℕ) (idx addId : ℕ), 0 < s.card → idx < s.card →
      (mutSetF true idx addId s).card = s.card - 1) := by
  constructor
  · intro s idx addId hfull haddId
    have hmem : addId ∈ s := hfull addId haddId
    simp [mutSetF, Finset.insert_eq_self.mpr hmem]
  · intro s idx addId hpos hidx
    simp only [mutSetF, if_true, if_pos hpos]
    exact Finset.card_erase_of_mem (sort_getD_mem s idx hidx)

/-- Witness for C9 on the full catalog set and on a concrete removal. -/
theorem mutSet_cardinality_boundary_witness :
    (mutSetF false 0 3 (Finset.range 20)).card = (Finset.range 20).card ∧
    (mutSetF true 0 3 (Finset.range 20)).card = (Finset.range 20).card - 1 :=
  ⟨mutSet_cardinality_boundary.1 (Finset.range 20) 0 3
      (by intro i hi; simpa [NBR_ITEMS] using hi) (by decide),
   mutSet_cardinality_boundary.2 (Finset.range 20) 0 3 (by decide) (by decide)⟩

/-- C8: mutation is deterministic given the generator draws and the
individual's membership as a set: two duplicate-free containers holding
exactly the same item ids, in whatever order, mutate under the same draws to
the same id-set, because the removal victim is chosen from the sorted
sequence of the current members. -/
theorem mutSet_membership_deterministic (coin : Bool) (idx addId : ℕ)
    (l1 l2 : List ℕ) (h1 : l1.Nodup) (h2 : l2.Nodup)
    (hset : l1.toFinset = l2.toFinset) :
    (mutSetL coin idx addId l1).toFinset = (mutSetL coin idx addId l2).toFinset := by
  rw [mutSetL_toFinset coin idx addId h1, mutSetL_toFinset coin idx addId h2, hset]

/-- Witness for C8: the containers `[2, 0, 7]` and `[7, 2, 0]` hold the same
ids and mutate to the same id-set under the same draws. -/
theorem mutSet_membership_deterministic_witness :
    (mutSetL true 1 4 [2, 0, 7]).toFinset = (mutSetL true 1 4 [7, 2, 0]).toFinset :=
  mutSet_membership_deterministic true 1 4 [2, 0, 7] [7, 2, 0]
    (by decide) (by decide) (by decide)

/-- Modelled from the spec: the Pareto hall of fame is DEAP `tools.ParetoFront`
library code, not under `src/`.  Following the spec's words, a candidate that
is dominated by any current archive member is discarded; otherwise every
archive member the candidate dominates is removed and the candidate is
inserted, unless an archive member with an equal objective vector is already
present (deduplication by fitness equality).  Archive members are represented
by their objective vectors. -/
def archiveInsert (archive : List (ℚ × ℚ)) (c : ℚ × ℚ) : List (ℚ × ℚ) :=
  if archive.any (fun m => decide (dominates m c)) then archive
  else
    let pruned := archive.filter (fun m => ! decide (dominates c m))
    if c ∈ pruned then pruned else pruned ++ [c]

/-- Modelled from the spec: one archive update processes the candidate list
in order, inserting each candidate in turn. -/
def archiveUpdate (archive : List (ℚ × ℚ)) (cands : List (ℚ × ℚ)) :
    List (ℚ × ℚ) :=
  cands.foldl archiveInsert archive

/-- Internal non-domination: no archive member dominates another. -/
def NonDominated (l : List (ℚ × ℚ)) : Prop :=
  ∀ x ∈ l, ∀ y ∈ l, ¬ dominates x y

instance decidableNonDominated (l : List (ℚ × ℚ)) : Decidable (NonDominated l) := by
  unfold NonDominated
  exact inferInstance

/-- Inserting one candidate preserves internal non-domination. -/
theorem archiveInsert_nonDominated {archive : List (ℚ × ℚ)}
    (h : NonDominated archive) (c : ℚ × ℚ) :
    NonDominated (archiveInsert archive c) := by
  unfold archiveInsert
  by_cases hdom : archive.any (fun m => decide (dominates m c)) = true
  · rwa [if_pos hdom]
  · rw [if_neg hdom]
    have hnotdom : ∀ m ∈ archive, ¬ dominates m c := by
      intro m hm hcon
      exact hdom (List.any_eq_true.mpr ⟨m, hm, by simpa using hcon⟩)
    set pruned := archive.filter (fun m => ! decide (dominates c m)) with hp
    have hsub : ∀ m ∈ pruned, m ∈ archive := fun m hm => (List.mem_filter.mp hm).1
    have hnc : ∀ m ∈ pruned, ¬ dominates c m := by
      intro m hm
      simpa using (List.mem_filter.mp hm).2
    have hpr : NonDominated pruned := fun x hx y hy => h x (hsub x hx) y (hsub y hy)
    by_cases hc : c ∈ pruned
    · rwa [if_pos hc]
    · rw [if_neg hc]
      intro x hx y hy
      rcases List.mem_append.mp hx with hx1 | hx1
      · rcases List.mem_append.mp hy with hy1 | hy1
        · exact hpr x hx1 y hy1
        · rw [List.mem_singleton.mp hy1]
          exact hnotdom x (hsub x hx1)
      · rw [List.mem_singleton.mp hx1]
        rcases List.mem_append.mp hy with hy1 | hy1
        · exact hnc y hy1
        · rw [List.mem_singleton.mp hy1]
          exact dominates_irrefl c

/-- Updating with any candidate list preserves internal non-domination. -/
theorem archiveUpdate_nonDominated :
    ∀ (cands : List (ℚ × ℚ)) (archive : List (ℚ × ℚ)),
      NonDominated archive → NonDominated (archiveUpdate archive cands)
  | [], _, h => h
  | c :: cs, archive, h =>
      archiveUpdate_nonDominated cs (archiveInsert archive c)
        (archiveInsert_nonDominated h c)

/-- C3: starting from an internally non-dominated archive, the update keeps
the archive internally non-dominated after processing every candidate; a
candidate dominated by a current archive member is discarded (the archive is
returned unchanged, so the candidate is not present unless an equal vector
already was); and a candidate dominated by no current member is present after
its insertion, with no member it dominates surviving. -/
theorem paretoArchive_update_invariant (archive cands : List (ℚ × ℚ))
    (h : NonDominated archive) :
    NonDominated (archiveUpdate archive cands) ∧
    (∀ c, (∃ m ∈ archive, dominates m c) → archiveInsert archive c = archive) ∧
    (∀ c, (∀ m ∈ archive, ¬ dominates m c) →
      c ∈ archiveInsert archive c ∧ ∀ m ∈ archiveInsert archive c, ¬ dominates c m) := by
  refine ⟨archiveUpdate_nonDominated cands archive h, ?_, ?_⟩
  · rintro c ⟨m, hm, hdom⟩
    unfold archiveInsert
    rw [if_pos (List.any_eq_true.mpr ⟨m, hm, by simpa using hdom⟩)]
  · intro c hnod
    have hany : ¬ archive.any (fun m => decide (dominates m c)) = true := by
      intro hcon
      obtain ⟨m, hm, hdm⟩ := List.any_eq_true.mp hcon
      exact hnod m hm (by simpa using hdm)
    unfold archiveInsert
    rw [if_neg hany]
    set pruned := archive.filter (fun m => ! decide (dominates c m)) with hp
    have hnc : ∀ m ∈ pruned, ¬ dominates c m := by
      intro m hm
      simpa using (List.mem_filter.mp hm).2
    by_cases hc : c ∈ pruned
    · rw [if_pos hc]
      exact ⟨hc, hnc⟩
    · rw [if_neg hc]
      refine ⟨List.mem_append.mpr (Or.inr (List.mem_singleton.mpr rfl)), ?_⟩
      intro m hm
      rcases List.mem_append.mp hm with hm1 | hm1
      · exact hnc m hm1
      · rw [List.mem_singleton.mp hm1]
        exact dominates_irrefl c

/-- Witness for C3 on a concrete non-dominated archive and candidate list. -/
theorem paretoArchive_update_invariant_witness :
    NonDominated (archiveUpdate [((1 : ℚ), (5 : ℚ)), (3, 7)] [(2, 6)]) ∧
    (∀ c, (∃ m ∈ [((1 : ℚ), (5 : ℚ)), (3, 7)], dominates m c) →
      archiveInsert [((1 : ℚ), (5 : ℚ)), (3, 7)] c = [(1, 5), (3, 7)]) ∧
    (∀ c, (∀ m ∈ [((1 : ℚ), (5 : ℚ)), (3, 7)], ¬ dominates m c) →
      c ∈ archiveInsert [((1 : ℚ), (5 : ℚ)), (3, 7)] c ∧
      ∀ m ∈ archiveInsert [((1 : ℚ), (5 : ℚ)), (3, 7)] c, ¬ dominates c m) :=
  paretoArchive_update_invariant [(1, 5), (3, 7)] [(2, 6)] (by decide)

/-- Constant `NGEN = 100` of `main`. -/
def NGEN : ℕ := 100

/-- Modelled from the spec: the generation-record log produced by the library
loop `algorithms.eaMuPlusLambda` (not under `src/`) holds one record per
completed generation, indices 0 to `ngen` inclusive; each record carries the
aggregate `max` objective vector of its generation's population, abstracted
here as a function `maxStat` of the generation index. -/
def genRecordLog (maxStat : ℕ → ℚ × ℚ) (ngen : ℕ) : List (ℕ × (ℚ × ℚ)) :=
  (List.range (ngen + 1)).map (fun g => (g, maxStat g))

/-- Embedding of the final-metric extraction in `main`: the `max` series is
read off the log, and the two reported metrics are the two components of its
entry at index `NGEN`. -/
def mainMetrics (log : List (ℕ × (ℚ × ℚ))) : ℚ × ℚ :=
  let maxSeries := log.map Prod.snd
  ((maxSeries.getD NGEN (0, 0)).1, (maxSeries.getD NGEN (0, 0)).2)

/-- C5: the generation-record log of a run with `NGEN` generations holds
exactly `NGEN + 1` records (101 records for `NGEN = 100`), whose generation
indices are 0 through `NGEN` inclusive; the record at index `NGEN` is the
last record; and the two scalar metrics reported at run end are the two
components of that record's `max` field. -/
theorem genRecordLog_metrics (maxStat : ℕ → ℚ × ℚ) :
    (genRecordLog maxStat NGEN).length = NGEN + 1 ∧
    NGEN + 1 = 101 ∧
    (genRecordLog maxStat NGEN).map Prod.fst = List.range (NGEN + 1) ∧
    (genRecordLog maxStat NGEN).getLast? = some (NGEN, maxStat NGEN) ∧
    mainMetrics (genRecordLog maxStat NGEN) =
      ((genRecordLog maxStat NGEN).getLast (by simp [genRecordLog])).2 := by
  have hlast : (genRecordLog maxStat NGEN).getLast? = some (NGEN, maxStat NGEN) := by
    rw [List.getLast?_eq_getElem?]
    simp [genRecordLog, NGEN]
  refine ⟨by simp [genRecordLog], rfl, ?_, hlast, ?_⟩
  · simp [genRecordLog, List.map_map, Function.comp_def]
  · have hmet : mainMetrics (genRecordLog maxStat NGEN) = maxStat NGEN := by
      simp [mainMetrics, genRecordLog, NGEN, List.getD_eq_getElem?_getD]
    have hne : genRecordLog maxStat NGEN ≠ [] := by simp [genRecordLog]
    have h2 := List.getLast?_eq_getLast (genRecordLog maxStat NGEN) hne
    rw [hlast] at h2
    rw [hmet, ← Option.some.inj h2]

/-- Run parameters of the evolution loop.  `main` hardcodes `NGEN = 100`,
`MU = 50`, `LAMBDA = 100`, `CXPB = 0.7`, `MUTPB = 0.2`. -/
structure EAConfig where
  mu : ℤ
  lam : ℤ
  ngen : ℤ
  cxpb : ℚ
  mutpb : ℚ

/-- Modelled from the spec: a configuration is valid when the population
sizes and the generation count are positive and the two operator
probabilities sum to at most one; configuration validation and the loop
orchestration are delegated to the DEAP library, not under `src/`. -/
def validConfig (c : EAConfig) : Prop :=
  0 < c.mu ∧ 0 < c.lam ∧ 0 < c.ngen ∧ c.cxpb + c.mutpb ≤ 1

instance decidableValidConfig (c : EAConfig) : Decidable (validConfig c) := by
  unfold validConfig
  exact inferInstance

/-- Outcome of a run: either rejected before Init with a fatal configuration
error, or completed with a generation-record log. -/
inductive RunOutcome where
  | rejected (msg : String)
  | completed (log : List (ℕ × (ℚ × ℚ)))

/-- Modelled from the spec: the run checks its configuration before Init;
only a valid configuration builds the initial population and runs the loop,
producing the generation-record log; an invalid one is rejected fatally,
before any part of the run happens. -/
def runEA (c : EAConfig) (maxStat : ℕ → ℚ × ℚ) : RunOutcome :=
  if validConfig c then RunOutcome.completed (genRecordLog maxStat c.ngen.toNat)
  else RunOutcome.rejected "configuration error"

/-- C7: an invalid configuration (non-positive `MU`, `LAMBDA` or `NGEN`, or
probabilities summing above one) is rejected before Init: the run surfaces a
fatal configuration error and produces no generation-record log at all. -/
theorem config_invalid_rejected (c : EAConfig) (maxStat : ℕ → ℚ × ℚ)
    (h : ¬ validConfig c) :
    runEA c maxStat = RunOutcome.rejected "configuration error" ∧
    ∀ log, runEA c maxStat ≠ RunOutcome.completed log := by
  have hrej : runEA c maxStat = RunOutcome.rejected "configuration error" := by
    simp [runEA, h]
  refine ⟨hrej, fun log hcon => ?_⟩
  rw [hrej] at hcon
  exact RunOutcome.noConfusion hcon

/-- Witness for C7 at the concrete invalid configuration `MU = 0` (with the
script's other parameter values). -/
theorem config_invalid_rejected_witness :
    (¬ validConfig ⟨0, 100, 100, 7 / 10, 2 / 10⟩) ∧
    runEA ⟨0, 100, 100, 7 / 10, 2 / 10⟩ (fun _ => (0, 0)) =
      RunOutcome.rejected "configuration error" ∧
    ∀ log, runEA ⟨0, 100, 100, 7 / 10, 2 / 10⟩ (fun _ => (0, 0)) ≠
      RunOutcome.completed log :=
  ⟨by decide, config_invalid_rejected ⟨0, 100, 100, 7 / 10, 2 / 10⟩ (fun _ => (0, 0))
    (by decide)⟩

end OptOps
